import Mathlib

/-!
Verification of the SemanticRAG document-indexing pipeline.

Go strings are modelled as `List Char`; Go maps built by inserting distinct
keys are modelled as association lists (`List (key × value)`) with
`List.lookup`.  Embedding vectors (`[]float32` in the source) are inert
payload throughout the code under study — they are only stored, copied and
compared, never computed with — so their components are modelled as exact
rationals.
-/

/-- The characters Go's `unicode.IsSpace` (used by `strings.TrimSpace`)
reports as white space. -/
def goIsSpace (c : Char) : Bool :=
  c.val = 0x09 || c.val = 0x0a || c.val = 0x0b || c.val = 0x0c ||
  c.val = 0x0d || c.val = 0x20 || c.val = 0x85 || c.val = 0xa0 ||
  c.val = 0x1680 || (0x2000 ≤ c.val && c.val ≤ 0x200a) ||
  c.val = 0x2028 || c.val = 0x2029 || c.val = 0x202f ||
  c.val = 0x205f || c.val = 0x3000

/-- `strings.TrimSpace`: drop white space from both ends. -/
def trimChars (l : List Char) : List Char :=
  List.rdropWhile goIsSpace (l.dropWhile goIsSpace)

/-- `strings.ReplaceAll(l, string(a), string(b))` for single characters. -/
def replaceAllChar (l : List Char) (a b : Char) : List Char :=
  l.map (fun c => if c = a then b else c)

/-- The two `ReplaceAll` calls of `simpleChunkDocument`: line breaks
become spaces. -/
def normalizeChars (l : List Char) : List Char :=
  replaceAllChar (replaceAllChar l '\n' ' ') '\r' ' '

/-- `strings.Split(l, ".")`: split on the literal sentence terminator. -/
def splitOnDot : List Char → List (List Char)
  | [] => [[]]
  | c :: cs =>
    if c = '.' then [] :: splitOnDot cs
    else
      match splitOnDot cs with
      | [] => [[c]]
      | f :: fs => (c :: f) :: fs

/-- The sentence-building loop of `simpleChunkDocument`: trim each raw
fragment, drop empties, restore the terminator. -/
def sentencesFrom (u : List Char) : List (List Char) :=
  (((splitOnDot u).map trimChars).filter (fun s => !s.isEmpty)).map
    (fun s => s ++ ['.'])

/-- The sentences the chunker retains for a document text: trim the whole
text, replace line breaks, split/trim/filter/restore. -/
def sentencesOf (text : List Char) : List (List Char) :=
  sentencesFrom (normalizeChars (trimChars text))

/-- `fmt.Sprintf("%s-%d", docID, index)`. -/
def chunkID (docID : String) (index : Nat) : String :=
  docID ++ "-" ++ toString index

/-- The passage record (`type Chunk struct { ID, Text string }`). -/
structure Chunk where
  ID : String
  Text : List Char
deriving DecidableEq, Repr

/-- `strings.Join(l, " ")`. -/
def joinSpace : List (List Char) → List Char
  | [] => []
  | [s] => s
  | s :: rest => s ++ ' ' :: joinSpace rest

/-- The grouping loop of `simpleChunkDocument`: accumulate sentences in
`current`, emit a chunk whenever `len(current) >= sentencesPerChunk`,
and emit a final partial group.  `sentencesPerChunk` is a Go `int`. -/
def chunkLoop (docID : String) (n : Int) :
    List (List Char) → List (List Char) → Nat → List Chunk
  | [], current, index =>
    if current.isEmpty then []
    else [{ ID := chunkID docID index, Text := joinSpace current }]
  | s :: rest, current, index =>
    if ((current ++ [s]).length : Int) ≥ n then
      { ID := chunkID docID index, Text := joinSpace (current ++ [s]) } ::
        chunkLoop docID n rest [] (index + 1)
    else
      chunkLoop docID n rest (current ++ [s]) index

/-- `simpleChunkDocument` (main.go): split the text into sentences and
group them into chunks of up to `sentencesPerChunk` sentences each. -/
def simpleChunkDocument (docID : String) (text : List Char)
    (sentencesPerChunk : Int) : List Chunk :=
  if (trimChars text).isEmpty then []
  else
    chunkLoop docID sentencesPerChunk
      (sentencesFrom (normalizeChars (trimChars text))) [] 0

/-- A sentence as retained by the chunker: a trimmed, non-empty,
terminator-free core with the `'.'` terminator restored, containing no line
breaks.  Every element of `sentencesOf text` has this shape. -/
def goodSentence (s : List Char) : Prop :=
  ∃ core, s = core ++ ['.'] ∧ core ≠ [] ∧ '.' ∉ core ∧ '\n' ∉ core ∧ '\r' ∉ core ∧
    core.dropWhile goIsSpace = core ∧ List.rdropWhile goIsSpace core = core

/-! ### Embedding cache (mockembedder.go)

The on-disk cache file is modelled by its observable parse outcome
(`FileState`); the `[]float32` vectors are inert payload, modelled as
`List Rat`.  The Go functions' side effects (invoking the embedding
backend, writing the cache file) are tracked explicitly in the results. -/

/-- A vector of float32 components (inert payload: stored and compared,
never computed with). -/
abbrev Vec := List Rat

/-- `map[string][]float32`, built by inserting distinct keys. -/
abbrev EmbeddingMap := List (String × Vec)

/-- `embedCacheFile`: the JSON cache-file schema.  `embeddings = none`
models a JSON file whose `embeddings` field is absent or null (Go nil map). -/
structure EmbedCacheFile where
  version : Int
  key : String
  model : String
  embeddings : Option EmbeddingMap
deriving DecidableEq, Repr

/-- The observable state of the cache file path, as seen by
`os.ReadFile` + `json.Unmarshal`. -/
inductive FileState where
  /-- `os.ReadFile` fails with a not-exist error. -/
  | missing
  /-- `os.ReadFile` fails with some other filesystem error. -/
  | readFailure (msg : String)
  /-- the file is present but `json.Unmarshal` fails on its bytes. -/
  | malformed (msg : String)
  /-- the file is present and parses as an `embedCacheFile`. -/
  | parsed (cf : EmbedCacheFile)
deriving DecidableEq, Repr

/-- The `(EmbeddingMap, *embedCacheFile, bool, error)` quadruple returned
by `loadEmbeddingsFromFile`, with the error case split off. -/
inductive LoadResult where
  | err (msg : String)
  | res (emb : Option EmbeddingMap) (cf : Option EmbedCacheFile) (ok : Bool)
deriving DecidableEq, Repr

/-- `loadEmbeddingsFromFile` (mockembedder.go): a not-exist read error is a
miss, any other read or parse error is returned, a parsed file with nil
embeddings is not ok. -/
def loadEmbeddingsFromFile : FileState → LoadResult
  | .missing => .res none none false
  | .readFailure msg => .err msg
  | .malformed msg => .err msg
  | .parsed cf =>
    match cf.embeddings with
    | none => .res none (some cf) false
    | some m => .res (some m) (some cf) true

/-- `saveEmbeddingsToFileAtomic` (mockembedder.go): a successful
write-to-temporary-then-rename leaves the path holding exactly the
marshalled entry, which parses back to the entry. -/
def saveEmbeddingsToFileAtomic (cf : EmbedCacheFile) : FileState :=
  .parsed cf

/-- `makeEmbedCacheKey` (mockembedder.go): `fileName|sha256:hex|chunk:n|model:m`.
The SHA-256 hex digest is an opaque function parameter here. -/
def makeEmbedCacheKey (sha256Hex : String → String) (fileName content : String)
    (chunkSize : Int) (model : String) : String :=
  fileName ++ "|sha256:" ++ sha256Hex content ++ "|chunk:" ++ toString chunkSize ++
    "|model:" ++ model

deriving instance DecidableEq for Except

/-- Result of a cache-wrapped embedding call, with its observable effects:
whether the embedding function was invoked and what cache entry was
saved (if any). -/
structure CachedCall where
  result : Except String EmbeddingMap
  called : Bool
  written : Option EmbedCacheFile
deriving DecidableEq, Repr

/-- `getEmbeddingsCached` (mockembedder.go): load if possible, else compute
via `embedFn` and save (the save is best-effort). -/
def getEmbeddingsCached (fs : FileState) (cacheKey model : String)
    (embedFn : Except String EmbeddingMap) : CachedCall :=
  match loadEmbeddingsFromFile fs with
  | .err e => { result := .error e, called := false, written := none }
  | .res emb cf ok =>
    if ok && (match cf with | some c => c.key == cacheKey | none => false) then
      { result := .ok (emb.getD []), called := false, written := none }
    else
      match embedFn with
      | .error e => { result := .error e, called := true, written := none }
      | .ok out =>
        { result := .ok out, called := true,
          written := some { version := 1, key := cacheKey, model := model,
                            embeddings := some out } }

/-- `embedWithCache` (mockembedder.go): behaviour controlled by the
`EMBED_CACHE_MODE` value (`mode0`; empty defaults to `auto`, any other
unknown value also falls to the `auto` arm of the switch). -/
def embedWithCache (mode0 : String) (fs : FileState)
    (embedFn : Except String EmbeddingMap) (sha256Hex : String → String)
    (fileName contentStr : String) (chunkSize : Int) (modelName : String) :
    CachedCall :=
  let mode := if mode0 = "" then "auto" else mode0
  let cacheKey := makeEmbedCacheKey sha256Hex fileName contentStr chunkSize modelName
  if mode = "off" then
    { result := embedFn, called := true, written := none }
  else if mode = "load" then
    match loadEmbeddingsFromFile fs with
    | .err e =>
      { result := .error ("failed to load embeddings cache: " ++ e),
        called := false, written := none }
    | .res loaded cf ok =>
      if ok && (match cf with | some c => c.key == cacheKey | none => false) then
        { result := .ok (loaded.getD []), called := false, written := none }
      else
        { result := .error "no matching cached embeddings found (set EMBED_CACHE_MODE=auto to generate once)",
          called := false, written := none }
  else
    getEmbeddingsCached fs cacheKey modelName embedFn

/-! ### Embedding providers (embeddings source, `hfEmbedder` / `teiEmbedder`)

A backend is a function from the batch payload (the `inputs` array of
texts) to its observable response.  The outcome records the payloads of
all HTTP requests actually issued. -/

/-- Observable response of one backend HTTP round trip. -/
inductive BackendResp where
  /-- `client.Do` returns an error. -/
  | netErr (msg : String)
  /-- the response status is not 200. -/
  | non200 (status : Nat) (body : String)
  /-- status 200 but the body does not decode. -/
  | badJSON (msg : String)
  /-- status 200 and the body decodes to one vector per row. -/
  | vectors (vs : List Vec)
deriving DecidableEq, Repr

/-- Result of an `Embed` call plus the batch payloads sent over the wire. -/
structure EmbedOutcome where
  result : Except String EmbeddingMap
  requests : List (List (List Char))
deriving DecidableEq, Repr

/-- Fuel-driven helper for `batchesOf` (the fuel is the list length, so the
default case is never reached). -/
def batchesGo (n : Nat) {α : Type} : Nat → List α → List (List α)
  | _, [] => []
  | 0, l => [l]
  | fuel + 1, x :: xs => (x :: xs.take (n - 1)) :: batchesGo n fuel (xs.drop (n - 1))

/-- The batching loop `for i := 0; i < len(l); i += n`: consecutive groups
of `n` elements, the last one possibly shorter. -/
def batchesOf (n : Nat) {α : Type} (l : List α) : List (List α) :=
  batchesGo n l.length l

/-- The per-batch body of `hfEmbedder.Embed`: issue the request, fail on a
network error, a non-200 status, a decode failure, or a vector-count
mismatch; otherwise record one vector per chunk id and continue. -/
def hfRunBatches (backend : List (List Char) → BackendResp) :
    List (List Chunk) → EmbeddingMap → List (List (List Char)) → EmbedOutcome
  | [], out, reqs => { result := .ok out, requests := reqs }
  | b :: bs, out, reqs =>
    match backend (b.map Chunk.Text) with
    | .netErr e => { result := .error e, requests := reqs ++ [b.map Chunk.Text] }
    | .non200 status body =>
      { result := .error ("HF API non-200: " ++ toString status ++ ": " ++ body),
        requests := reqs ++ [b.map Chunk.Text] }
    | .badJSON e => { result := .error e, requests := reqs ++ [b.map Chunk.Text] }
    | .vectors vs =>
      if vs.length = b.length then
        hfRunBatches backend bs (out ++ (b.map Chunk.ID).zip vs)
          (reqs ++ [b.map Chunk.Text])
      else
        { result := .error ("HF API embeddings count mismatch: have " ++
            toString vs.length ++ " want " ++ toString b.length),
          requests := reqs ++ [b.map Chunk.Text] }

/-- `hfEmbedder.Embed`: empty input returns an empty map before any request;
otherwise the chunks are processed in batches of `batch`. -/
def hfEmbedderEmbed (backend : List (List Char) → BackendResp) (batch : Nat)
    (chunks : List Chunk) : EmbedOutcome :=
  if chunks.isEmpty then { result := .ok [], requests := [] }
  else hfRunBatches backend (batchesOf batch chunks) [] []

/-- The per-batch body of `teiEmbedder.Embed` (same control flow as the HF
backend, TEI error strings). -/
def teiRunBatches (backend : List (List Char) → BackendResp) :
    List (List Chunk) → EmbeddingMap → List (List (List Char)) → EmbedOutcome
  | [], out, reqs => { result := .ok out, requests := reqs }
  | b :: bs, out, reqs =>
    match backend (b.map Chunk.Text) with
    | .netErr e => { result := .error e, requests := reqs ++ [b.map Chunk.Text] }
    | .non200 status body =>
      { result := .error ("TEI non-200: " ++ toString status ++ ": " ++ body),
        requests := reqs ++ [b.map Chunk.Text] }
    | .badJSON e => { result := .error e, requests := reqs ++ [b.map Chunk.Text] }
    | .vectors vs =>
      if vs.length = b.length then
        teiRunBatches backend bs (out ++ (b.map Chunk.ID).zip vs)
          (reqs ++ [b.map Chunk.Text])
      else
        { result := .error ("TEI embeddings count mismatch: have " ++
            toString vs.length ++ " want " ++ toString b.length),
          requests := reqs ++ [b.map Chunk.Text] }

/-- `teiEmbedder.Embed`: empty input returns an empty map before any
request; otherwise the chunks are processed in batches of `batch`. -/
def teiEmbedderEmbed (backend : List (List Char) → BackendResp) (batch : Nat)
    (chunks : List Chunk) : EmbedOutcome :=
  if chunks.isEmpty then { result := .ok [], requests := [] }
  else teiRunBatches backend (batchesOf batch chunks) [] []

/-! ### Upload indexing path (handlers.go `uploadHandler`, lines 51-105) -/

/-- The per-chunk metadata attached on upsert. -/
structure DocMeta where
  context : String
  doc_id : String
  len : Nat
deriving DecidableEq, Repr

/-- One aligned `(id, embedding, text, metadata)` row as assembled by the
upload handler. -/
structure IndexedRow where
  id : String
  embedding : Vec
  text : List Char
  meta : DocMeta
deriving DecidableEq, Repr

/-- The assembly loop of `uploadHandler`: walk the chunks in order and look
each id up in the embedding map; the first missing id aborts with an error
naming it. -/
def buildAligned (fileName : String) :
    List Chunk → EmbeddingMap → Except String (List IndexedRow)
  | [], _ => .ok []
  | c :: cs, embeds =>
    match embeds.lookup c.ID with
    | none => .error ("missing embedding for chunk " ++ c.ID)
    | some vec =>
      match buildAligned fileName cs embeds with
      | .error e => .error e
      | .ok rest =>
        .ok ({ id := c.ID, embedding := vec, text := c.Text,
               meta := { context := fileName, doc_id := c.ID,
                         len := c.Text.length } } :: rest)

/-- The HTTP response written by the upload handler. -/
inductive UploadResult where
  | httpError (status : Nat) (msg : String)
  | ok (count : Nat)
deriving DecidableEq, Repr

/-- Result of the indexing stage plus the ids actually persisted to the
vector store. -/
structure UploadOutcome where
  response : UploadResult
  upserted : List String
deriving DecidableEq, Repr

/-- `uploadHandler` (handlers.go) from the point where the file content and
the embedding map are in hand: chunk with group size 2, assemble aligned
arrays (error 400 naming the first missing chunk id, before anything is
sent to the store), then issue the single `collection.Add` call, whose
success is the external `addOk`. -/
def uploadIndex (fileName : String) (contentStr : List Char)
    (embeds : EmbeddingMap) (addOk : Bool) : UploadOutcome :=
  let chunks := simpleChunkDocument fileName contentStr 2
  match buildAligned fileName chunks embeds with
  | .error e => { response := .httpError 400 e, upserted := [] }
  | .ok rows =>
    if addOk then { response := .ok rows.length, upserted := rows.map IndexedRow.id }
    else { response := .httpError 500 "failed to add to chroma", upserted := [] }

/-- Claim C8: Chunking `"Hello world. This is a test. Bye now."` with document id
`"doc"` and group size 2 yields exactly the passages
`"Hello world. This is a test."` (id `doc-0`) and `"Bye now."` (id `doc-1`),
in that order. -/
theorem scenA_chunks :
    simpleChunkDocument "doc" "Hello world. This is a test. Bye now.".toList 2 =
      [{ ID := "doc-0", Text := "Hello world. This is a test.".toList },
       { ID := "doc-1", Text := "Bye now.".toList }] := by
  decide

/-- Claim C9: calling `Embed` with an empty chunk list returns an empty
(non-nil) embedding map and performs no remote request at all, for both the
Hugging Face backend and the TEI backend. -/
theorem embed_empty_chunks (backend : List (List Char) → BackendResp) (batch : Nat) :
    hfEmbedderEmbed backend batch [] = { result := .ok [], requests := [] } ∧
    teiEmbedderEmbed backend batch [] = { result := .ok [], requests := [] } := by
  constructor <;> rfl

/-- Claim C3, counterexample: in cache mode `auto`, a malformed cache file is
NOT non-fatal: even with a succeeding embedding function available, the
request returns the parse error, the embedding function is never invoked
(no fall-through to recomputation) and nothing is saved. -/
theorem cache_malformed_auto_cex :
    embedWithCache "auto" (.malformed "invalid character")
        (.ok [("doc-0", [1])]) (fun _ => "aa") "doc.txt" "text" 2 "model" =
      { result := .error "invalid character", called := false, written := none } := by
  rfl

/-- Claim C3 (amended): a malformed cache file (present but not parseable as
the expected JSON) is fatal in BOTH cache modes: in `auto` the request
returns the parse error without falling through to recomputation, and in
`load` it returns the wrapped parse error; in neither mode is the embedding
function invoked or anything saved. -/
theorem cache_malformed_fatal (msg : String) (embedFn : Except String EmbeddingMap)
    (sha256Hex : String → String) (fileName contentStr : String)
    (chunkSize : Int) (modelName : String) :
    embedWithCache "auto" (.malformed msg) embedFn sha256Hex
        fileName contentStr chunkSize modelName =
      { result := .error msg, called := false, written := none } ∧
    embedWithCache "load" (.malformed msg) embedFn sha256Hex
        fileName contentStr chunkSize modelName =
      { result := .error ("failed to load embeddings cache: " ++ msg),
        called := false, written := none } := by
  constructor <;> rfl

/-- Claim C3 witness: the amended claim evaluated on a concrete malformed
cache file. -/
theorem cache_malformed_fatal_w :
    embedWithCache "auto" (.malformed "bad") (.ok []) (fun _ => "h") "f" "c" 2 "m" =
      { result := .error "bad", called := false, written := none } ∧
    embedWithCache "load" (.malformed "bad") (.ok []) (fun _ => "h") "f" "c" 2 "m" =
      { result := .error ("failed to load embeddings cache: " ++ "bad"),
        called := false, written := none } :=
  cache_malformed_fatal "bad" (.ok []) (fun _ => "h") "f" "c" 2 "m"

/-- Claim C5, counterexample: in mode `load` with the cache file absent the
request does fail and no backend call is attempted, but the error does NOT
name the missing key: it is a fixed message, and the computed key is not a
substring of it. -/
theorem cache_load_miss_cex :
    (embedWithCache "load" .missing (.ok [("doc-0", [1])]) (fun _ => "h")
        "f" "c" 2 "m").result =
      .error "no matching cached embeddings found (set EMBED_CACHE_MODE=auto to generate once)" ∧
    (embedWithCache "load" .missing (.ok [("doc-0", [1])]) (fun _ => "h")
        "f" "c" 2 "m").called = false ∧
    ¬ (makeEmbedCacheKey (fun _ => "h") "f" "c" 2 "m").toList <:+:
        "no matching cached embeddings found (set EMBED_CACHE_MODE=auto to generate once)".toList := by
  refine ⟨rfl, rfl, ?_⟩
  set_option maxRecDepth 8192 in decide

/-- Claim C5 (amended): in cache mode `load`, if the cache file is absent or
its stored key differs from the key computed for the request,
`embedWithCache` returns an error with a fixed message (recommending `auto`
mode; it does not name the key), the embedding backend is never invoked,
and nothing is written. -/
theorem cache_load_miss (fs : FileState) (embedFn : Except String EmbeddingMap)
    (sha256Hex : String → String) (fileName contentStr : String)
    (chunkSize : Int) (modelName : String)
    (h : fs = .missing ∨ ∃ cf : EmbedCacheFile, fs = .parsed cf ∧
        cf.key ≠ makeEmbedCacheKey sha256Hex fileName contentStr chunkSize modelName) :
    embedWithCache "load" fs embedFn sha256Hex
        fileName contentStr chunkSize modelName =
      { result := .error "no matching cached embeddings found (set EMBED_CACHE_MODE=auto to generate once)",
        called := false, written := none } := by
  rcases h with rfl | ⟨cf, rfl, hk⟩
  · rfl
  · cases hcf : cf.embeddings with
    | none => simp [embedWithCache, loadEmbeddingsFromFile, hcf]
    | some m => simp [embedWithCache, loadEmbeddingsFromFile, hcf, beq_iff_eq, hk]

/-- Claim C5 witness: the amended claim evaluated with the cache file
absent. -/
theorem cache_load_miss_w :
    embedWithCache "load" .missing (.ok []) (fun _ => "h") "f" "c" 2 "m" =
      { result := .error "no matching cached embeddings found (set EMBED_CACHE_MODE=auto to generate once)",
        called := false, written := none } :=
  cache_load_miss .missing (.ok []) (fun _ => "h") "f" "c" 2 "m" (Or.inl rfl)

/-- Claim C6: a successful atomic save followed by a get of the same key
returns an EmbeddingSet equal to the entry's embeddings; and in `auto` mode,
after a first call computes and persists an entry, a second call with
identical document, chunking and model parameters returns the same vectors
without invoking the embedding backend. -/
theorem cache_roundtrip_auto :
    (∀ (cf : EmbedCacheFile) (m : EmbeddingMap) (model2 : String)
        (embedFn2 : Except String EmbeddingMap),
      cf.embeddings = some m →
      getEmbeddingsCached (saveEmbeddingsToFileAtomic cf) cf.key model2 embedFn2 =
        { result := .ok m, called := false, written := none }) ∧
    (∀ (fs : FileState) (out : EmbeddingMap) (sha256Hex : String → String)
        (fileName contentStr : String) (chunkSize : Int) (modelName : String)
        (cf1 : EmbedCacheFile) (embedFn2 : Except String EmbeddingMap),
      (embedWithCache "auto" fs (.ok out) sha256Hex
          fileName contentStr chunkSize modelName).written = some cf1 →
      (embedWithCache "auto" fs (.ok out) sha256Hex
          fileName contentStr chunkSize modelName).result = .ok out ∧
      embedWithCache "auto" (saveEmbeddingsToFileAtomic cf1) embedFn2 sha256Hex
          fileName contentStr chunkSize modelName =
        { result := .ok out, called := false, written := none }) := by
  constructor
  · intro cf m model2 embedFn2 hm
    simp [getEmbeddingsCached, saveEmbeddingsToFileAtomic, loadEmbeddingsFromFile, hm]
  · intro fs out sha256Hex fileName contentStr chunkSize modelName cf1 embedFn2 hw
    have hauto : ∀ (g : FileState) (e : Except String EmbeddingMap),
        embedWithCache "auto" g e sha256Hex fileName contentStr chunkSize modelName =
          getEmbeddingsCached g
            (makeEmbedCacheKey sha256Hex fileName contentStr chunkSize modelName)
            modelName e := fun g e => rfl
    rw [hauto] at hw ⊢
    rw [hauto]
    set key := makeEmbedCacheKey sha256Hex fileName contentStr chunkSize modelName with hkey
    have hcf1 : cf1 = EmbedCacheFile.mk 1 key modelName (some out) ∧
        (getEmbeddingsCached fs key modelName (.ok out)).result = .ok out := by
      cases fs with
      | missing =>
        simp [getEmbeddingsCached, loadEmbeddingsFromFile] at hw ⊢
        exact hw.symm
      | readFailure msg => simp [getEmbeddingsCached, loadEmbeddingsFromFile] at hw
      | malformed msg => simp [getEmbeddingsCached, loadEmbeddingsFromFile] at hw
      | parsed cf =>
        cases hcf : cf.embeddings with
        | none =>
          simp [getEmbeddingsCached, loadEmbeddingsFromFile, hcf] at hw ⊢
          exact hw.symm
        | some m =>
          by_cases hkc : cf.key = key
          · simp [getEmbeddingsCached, loadEmbeddingsFromFile, hcf, hkc] at hw
          · simp [getEmbeddingsCached, loadEmbeddingsFromFile, hcf, hkc,
              beq_iff_eq] at hw ⊢
            exact hw.symm
    rcases hcf1 with ⟨rfl, hres⟩
    refine ⟨hres, ?_⟩
    simp [getEmbeddingsCached, saveEmbeddingsToFileAtomic, loadEmbeddingsFromFile]

/-- Claim C6 witness: the round trip and the two-call `auto` sequence
evaluated at a concrete entry (first call on a missing cache file). -/
theorem cache_roundtrip_auto_w :
    getEmbeddingsCached
        (saveEmbeddingsToFileAtomic
          { version := 1, key := "k", model := "m", embeddings := some [("a", [1])] })
        "k" "m2" (.error "unused") =
      { result := .ok [("a", [1])], called := false, written := none } ∧
    ((embedWithCache "auto" .missing (.ok [("a", [1])]) (fun _ => "h")
        "f" "c" 2 "m").result = .ok [("a", [1])] ∧
      embedWithCache "auto"
          (saveEmbeddingsToFileAtomic
            { version := 1, key := makeEmbedCacheKey (fun _ => "h") "f" "c" 2 "m",
              model := "m", embeddings := some [("a", [1])] })
          (.error "unused") (fun _ => "h") "f" "c" 2 "m" =
        { result := .ok [("a", [1])], called := false, written := none }) :=
  ⟨cache_roundtrip_auto.1 _ [("a", [1])] "m2" (.error "unused") rfl,
   cache_roundtrip_auto.2 .missing [("a", [1])] (fun _ => "h") "f" "c" 2 "m"
     _ (.error "unused") rfl⟩

/-- Helper for claim C1: if some chunk id has no entry in the embedding
map, the assembly loop fails with an error naming a missing chunk id (the
first one encountered). -/
theorem buildAligned_error (fileName : String) :
    ∀ (chunks : List Chunk) (embeds : EmbeddingMap),
      (∃ c ∈ chunks, embeds.lookup c.ID = none) →
      ∃ c ∈ chunks, embeds.lookup c.ID = none ∧
        buildAligned fileName chunks embeds =
          .error ("missing embedding for chunk " ++ c.ID) := by
  intro chunks
  induction chunks with
  | nil => rintro embeds ⟨c, hc, _⟩; cases hc
  | cons c cs ih =>
    rintro embeds ⟨d, hd, hdm⟩
    cases hcl : embeds.lookup c.ID with
    | none =>
      refine ⟨c, List.mem_cons_self c cs, hcl, ?_⟩
      simp [buildAligned, hcl]
    | some vec =>
      have hdcs : d ∈ cs := by
        rcases List.mem_cons.mp hd with rfl | h
        · rw [hcl] at hdm; cases hdm
        · exact h
      obtain ⟨e, he, hem, herr⟩ := ih embeds ⟨d, hdcs, hdm⟩
      refine ⟨e, List.mem_cons_of_mem c he, hem, ?_⟩
      simp [buildAligned, hcl, herr]

/-- Claim C1: for every upload request, if any chunk id produced by the
chunker is absent from the embedding map returned by the embedder, indexing
aborts with a 400 error naming the missing chunk id, and nothing is
upserted to the vector store. -/
theorem upload_missing_embedding_aborts (fileName : String)
    (contentStr : List Char) (embeds : EmbeddingMap) (addOk : Bool)
    (h : ∃ c ∈ simpleChunkDocument fileName contentStr 2,
        embeds.lookup c.ID = none) :
    ∃ c ∈ simpleChunkDocument fileName contentStr 2,
      embeds.lookup c.ID = none ∧
      (uploadIndex fileName contentStr embeds addOk).response =
        .httpError 400 ("missing embedding for chunk " ++ c.ID) ∧
      (uploadIndex fileName contentStr embeds addOk).upserted = [] := by
  obtain ⟨c, hc, hcm, herr⟩ := buildAligned_error fileName
    (simpleChunkDocument fileName contentStr 2) embeds h
  refine ⟨c, hc, hcm, ?_, ?_⟩ <;> simp [uploadIndex, herr]

/-- Claim C1 witness: a one-chunk document whose id is missing from an
empty embedding map. -/
theorem upload_missing_embedding_aborts_w :
    (∃ c ∈ simpleChunkDocument "doc" "Hi there.".toList 2,
      List.lookup c.ID ([] : EmbeddingMap) = none) ∧
    ∃ c ∈ simpleChunkDocument "doc" "Hi there.".toList 2,
      List.lookup c.ID ([] : EmbeddingMap) = none ∧
      (uploadIndex "doc" "Hi there.".toList [] true).response =
        .httpError 400 ("missing embedding for chunk " ++ c.ID) ∧
      (uploadIndex "doc" "Hi there.".toList [] true).upserted = [] :=
  ⟨by decide, upload_missing_embedding_aborts "doc" "Hi there.".toList [] true
    (by decide)⟩

/-- If `dropWhile` returns a cons, its head fails the predicate. -/
theorem head_dropWhile_false {α : Type} {p : α → Bool} :
    ∀ {l : List α} {a : α} {r : List α}, l.dropWhile p = a :: r → p a = false := by
  intro l
  induction l with
  | nil => intro a r h; cases h
  | cons x t ih =>
    intro a r h
    rw [List.dropWhile_cons] at h
    by_cases hx : p x = true
    · rw [if_pos hx] at h; exact ih h
    · rw [if_neg hx] at h
      cases h
      simpa using hx

/-- An element failing the predicate survives `dropWhile`. -/
theorem mem_dropWhile_of_not {α : Type} {p : α → Bool} {c : α} :
    ∀ {l : List α}, c ∈ l → p c = false → c ∈ l.dropWhile p := by
  intro l
  induction l with
  | nil => intro h; cases h
  | cons a t ih =>
    intro hc hp
    rw [List.dropWhile_cons]
    by_cases ha : p a = true
    · rw [if_pos ha]
      rcases List.mem_cons.mp hc with rfl | h
      · rw [ha] at hp; cases hp
      · exact ih h hp
    · rw [if_neg ha]; exact hc

/-- Trimming only removes elements: `trimChars l ⊆ l`. -/
theorem trimChars_subset {c : Char} {l : List Char} (h : c ∈ trimChars l) :
    c ∈ l := by
  rw [trimChars, List.rdropWhile] at h
  rw [List.mem_reverse] at h
  have h2 := ( List.dropWhile_suffix goIsSpace).subset h
  rw [List.mem_reverse] at h2
  exact ( List.dropWhile_suffix goIsSpace).subset h2

/-- A non-space character survives trimming. -/
theorem mem_trimChars_of_not {c : Char} {l : List Char} (hc : c ∈ l)
    (hp : goIsSpace c = false) : c ∈ trimChars l := by
  rw [trimChars, List.rdropWhile, List.mem_reverse]
  exact mem_dropWhile_of_not (List.mem_reverse.mpr (mem_dropWhile_of_not hc hp)) hp

/-- The front of a trimmed list is already clean. -/
theorem dropWhile_trimChars (l : List Char) :
    (trimChars l).dropWhile goIsSpace = trimChars l := by
  cases htrim : trimChars l with
  | nil => rfl
  | cons a m =>
    have hpre : trimChars l <+: l.dropWhile goIsSpace := by
      rw [trimChars]
      exact List.rdropWhile_prefix _ _
    obtain ⟨t, ht⟩ := hpre
    rw [htrim, List.cons_append] at ht
    have hpa : goIsSpace a = false := head_dropWhile_false ht.symm
    rw [List.dropWhile_cons, if_neg (by simp [hpa])]

/-- The back of a trimmed list is already clean. -/
theorem rdropWhile_trimChars (l : List Char) :
    List.rdropWhile goIsSpace (trimChars l) = trimChars l := by
  rw [trimChars]
  exact List.rdropWhile_idempotent _ _

/-- A list clean at both ends is unchanged by trimming. -/
theorem trimChars_eq_self {l : List Char} (h1 : l.dropWhile goIsSpace = l)
    (h2 : List.rdropWhile goIsSpace l = l) : trimChars l = l := by
  rw [trimChars, h1, h2]

/-- Trimming discards a leading space. -/
theorem trimChars_cons_space {c : Char} {l : List Char}
    (h : goIsSpace c = true) : trimChars (c :: l) = trimChars l := by
  rw [trimChars, trimChars, List.dropWhile_cons, if_pos h]

/-- `splitOnDot` always returns at least one fragment. -/
theorem splitOnDot_exists_cons (l : List Char) :
    ∃ f fs, splitOnDot l = f :: fs := by
  induction l with
  | nil => exact ⟨[], [], rfl⟩
  | cons c cs ih =>
    obtain ⟨f, fs, hf⟩ := ih
    by_cases hc : c = '.'
    · exact ⟨[], splitOnDot cs, by simp [splitOnDot, hc]⟩
    · exact ⟨c :: f, fs, by simp [splitOnDot, hc, hf]⟩

/-- Splitting at a leading terminator. -/
theorem splitOnDot_cons_dot (cs : List Char) :
    splitOnDot ('.' :: cs) = [] :: splitOnDot cs := by
  simp [splitOnDot]

/-- Splitting past a leading non-terminator. -/
theorem splitOnDot_cons_ne {c : Char} {l f : List Char} {fs : List (List Char)}
    (hc : c ≠ '.') (h : splitOnDot l = f :: fs) :
    splitOnDot (c :: l) = (c :: f) :: fs := by
  simp [splitOnDot, hc, h]

/-- Splitting a terminator-free block followed by a terminator. -/
theorem splitOnDot_append_dot {a b : List Char} (h : '.' ∉ a) :
    splitOnDot (a ++ '.' :: b) = a :: splitOnDot b := by
  induction a with
  | nil => exact splitOnDot_cons_dot b
  | cons c a ih =>
    have hc : c ≠ '.' := fun hcc => h (hcc ▸ List.mem_cons_self c a)
    have ha : '.' ∉ a := fun hm => h (List.mem_cons_of_mem c hm)
    rw [List.cons_append]
    exact splitOnDot_cons_ne hc (ih ha)

/-- Fragments produced by `splitOnDot` contain no terminator. -/
theorem splitOnDot_no_dot : ∀ {l : List Char}, ∀ f ∈ splitOnDot l, '.' ∉ f := by
  intro l
  induction l with
  | nil =>
    intro f hf
    rcases List.mem_singleton.mp hf with rfl
    simp
  | cons c cs ih =>
    intro f hf
    by_cases hc : c = '.'
    · subst hc
      rw [splitOnDot_cons_dot] at hf
      rcases List.mem_cons.mp hf with rfl | h
      · simp
      · exact ih f h
    · obtain ⟨g, gs, hg⟩ := splitOnDot_exists_cons cs
      rw [splitOnDot_cons_ne hc hg] at hf
      rcases List.mem_cons.mp hf with rfl | h
      · intro hm
        rcases List.mem_cons.mp hm with h1 | h2
        · exact hc h1.symm
        · exact ih g (hg ▸ List.mem_cons_self g gs) h2
      · exact ih f (hg ▸ List.mem_cons_of_mem g h)

/-- Characters of a fragment come from the split list. -/
theorem splitOnDot_subset :
    ∀ {l : List Char}, ∀ f ∈ splitOnDot l, ∀ c ∈ f, c ∈ l := by
  intro l
  induction l with
  | nil =>
    intro f hf
    rcases List.mem_singleton.mp hf with rfl
    intro c hc
    cases hc
  | cons d cs ih =>
    intro f hf c hc
    by_cases hd : d = '.'
    · subst hd
      rw [splitOnDot_cons_dot] at hf
      rcases List.mem_cons.mp hf with rfl | h
      · cases hc
      · exact List.mem_cons_of_mem _ (ih f h c hc)
    · obtain ⟨g, gs, hg⟩ := splitOnDot_exists_cons cs
      rw [splitOnDot_cons_ne hd hg] at hf
      rcases List.mem_cons.mp hf with rfl | h
      · rcases List.mem_cons.mp hc with rfl | h2
        · exact List.mem_cons_self _ _
        · exact List.mem_cons_of_mem _
            (ih g (hg ▸ List.mem_cons_self g gs) c h2)
      · exact List.mem_cons_of_mem _ (ih f (hg ▸ List.mem_cons_of_mem g h) c hc)

/-- A terminator-free list is a single fragment. -/
theorem splitOnDot_of_not_mem {l : List Char} (h : '.' ∉ l) :
    splitOnDot l = [l] := by
  induction l with
  | nil => rfl
  | cons c cs ih =>
    have hc : c ≠ '.' := fun hcc => h (hcc ▸ List.mem_cons_self _ _)
    have hcs : '.' ∉ cs := fun hm => h (List.mem_cons_of_mem _ hm)
    exact splitOnDot_cons_ne hc (ih hcs)

/-- A character of the replaced list is the replacement or an original. -/
theorem mem_replaceAllChar {c : Char} {l : List Char} {a b : Char}
    (h : c ∈ replaceAllChar l a b) : c = b ∨ c ∈ l := by
  rw [replaceAllChar] at h
  obtain ⟨x, hx, hfx⟩ := List.mem_map.mp h
  by_cases hxa : x = a
  · rw [if_pos hxa] at hfx
    exact Or.inl hfx.symm
  · rw [if_neg hxa] at hfx
    exact Or.inr (hfx ▸ hx)

/-- The replaced character never survives replacement (unless it equals the
replacement). -/
theorem not_mem_replaceAllChar {a b : Char} (hab : a ≠ b) (l : List Char) :
    a ∉ replaceAllChar l a b := by
  intro h
  rw [replaceAllChar] at h
  obtain ⟨x, hx, hfx⟩ := List.mem_map.mp h
  by_cases hxa : x = a
  · rw [if_pos hxa] at hfx
    exact hab hfx.symm
  · rw [if_neg hxa] at hfx
    exact hxa hfx

/-- Replacement of an absent character is the identity. -/
theorem replaceAllChar_eq_self {l : List Char} {a b : Char} (h : a ∉ l) :
    replaceAllChar l a b = l := by
  rw [replaceAllChar]
  conv_rhs => rw [← List.map_id l]
  apply List.map_congr_left
  intro x hx
  have hxa : x ≠ a := fun hx2 => h (by rw [← hx2]; exact hx)
  rw [if_neg hxa]
  rfl

/-- The normalized text contains no line breaks. -/
theorem normalizeChars_no_break (l : List Char) :
    '\n' ∉ normalizeChars l ∧ '\r' ∉ normalizeChars l := by
  constructor
  · intro h
    rcases mem_replaceAllChar h with h1 | h2
    · exact absurd h1 (by decide)
    · exact not_mem_replaceAllChar (by decide) _ h2
  · exact not_mem_replaceAllChar (by decide) _

/-- Normalization of break-free text is the identity. -/
theorem normalizeChars_eq_self {l : List Char} (hn : '\n' ∉ l) (hr : '\r' ∉ l) :
    normalizeChars l = l := by
  rw [normalizeChars, replaceAllChar_eq_self hn, replaceAllChar_eq_self hr]

/-- A character of the normalized text is a space or an original. -/
theorem mem_of_mem_normalizeChars {c : Char} {l : List Char}
    (h : c ∈ normalizeChars l) : c = ' ' ∨ c ∈ l := by
  rcases mem_replaceAllChar h with h1 | h2
  · exact Or.inl h1
  · rcases mem_replaceAllChar h2 with h3 | h4
    · exact Or.inl h3
    · exact Or.inr h4

/-- Normalization preserves non-emptiness. -/
theorem normalizeChars_ne_nil {l : List Char} (h : l ≠ []) :
    normalizeChars l ≠ [] := by
  intro h2
  rw [normalizeChars, replaceAllChar, replaceAllChar] at h2
  simp [List.map_eq_nil_iff] at h2
  exact h h2

/-- `joinSpace` on two or more lists. -/
theorem joinSpace_cons_cons (s t : List Char) (g : List (List Char)) :
    joinSpace (s :: t :: g) = s ++ ' ' :: joinSpace (t :: g) := rfl

/-- A character of the join is a separator space or from one of the lists. -/
theorem mem_joinSpace :
    ∀ {g : List (List Char)} {c : Char}, c ∈ joinSpace g →
      c = ' ' ∨ ∃ s ∈ g, c ∈ s := by
  intro g
  induction g with
  | nil => intro c h; cases h
  | cons s g2 ih =>
    intro c h
    cases g2 with
    | nil => exact Or.inr ⟨s, List.mem_cons_self s [], h⟩
    | cons t g3 =>
      rw [joinSpace_cons_cons] at h
      rcases List.mem_append.mp h with h1 | h2
      · exact Or.inr ⟨s, List.mem_cons_self _ _, h1⟩
      · rcases List.mem_cons.mp h2 with rfl | h3
        · exact Or.inl rfl
        · rcases ih h3 with h4 | ⟨u, hu, hcu⟩
          · exact Or.inl h4
          · exact Or.inr ⟨u, List.mem_cons_of_mem _ hu, hcu⟩

/-- The join of good sentences ends with the terminator. -/
theorem joinSpace_ends_dot :
    ∀ {g : List (List Char)}, (∀ s ∈ g, goodSentence s) → g ≠ [] →
      ∃ K, joinSpace g = K ++ ['.'] := by
  intro g
  induction g with
  | nil => intro _ h; cases h rfl
  | cons s g2 ih =>
    intro hg _
    cases g2 with
    | nil =>
      obtain ⟨core, hs, -⟩ := hg s (List.mem_cons_self s [])
      exact ⟨core, hs⟩
    | cons t g3 =>
      obtain ⟨K, hK⟩ := ih (fun x hx => hg x (List.mem_cons_of_mem _ hx)) (by simp)
      refine ⟨s ++ ' ' :: K, ?_⟩
      rw [joinSpace_cons_cons, hK]
      simp

/-- No sentences in an empty text. -/
theorem sentencesFrom_nil : sentencesFrom [] = [] := rfl

/-- A leading space does not change the extracted sentences. -/
theorem sentencesFrom_cons_space (t : List Char) :
    sentencesFrom (' ' :: t) = sentencesFrom t := by
  obtain ⟨f, fs, hf⟩ := splitOnDot_exists_cons t
  rw [sentencesFrom, sentencesFrom, splitOnDot_cons_ne (by decide) hf, hf]
  rw [List.map_cons, List.map_cons,
    trimChars_cons_space (show goIsSpace ' ' = true by decide)]

/-- Extracting sentences from a clean core followed by a terminator peels
off one sentence. -/
theorem sentencesFrom_append_dot {core t : List Char} (hne : core ≠ [])
    (hdot : '.' ∉ core) (htrim : trimChars core = core) :
    sentencesFrom (core ++ '.' :: t) = (core ++ ['.']) :: sentencesFrom t := by
  rw [sentencesFrom, splitOnDot_append_dot hdot, List.map_cons, htrim,
    List.filter_cons]
  have hcne : (!core.isEmpty) = true := by
    cases core with
    | nil => cases hne rfl
    | cons a m => rfl
  rw [if_pos hcne, List.map_cons]
  rfl

/-- Extraction: the sentences of a space-join of good sentences are exactly
those sentences. -/
theorem sentencesFrom_joinSpace :
    ∀ {g : List (List Char)}, (∀ s ∈ g, goodSentence s) → g ≠ [] →
      sentencesFrom (joinSpace g) = g := by
  intro g
  induction g with
  | nil => intro _ h; cases h rfl
  | cons s g2 ih =>
    intro hg _
    obtain ⟨core, hs, hne, hdot, -, -, h1, h2⟩ := hg s (List.mem_cons_self s g2)
    have htrim : trimChars core = core := trimChars_eq_self h1 h2
    cases g2 with
    | nil =>
      show sentencesFrom (joinSpace [s]) = [s]
      have hj : joinSpace [s] = core ++ '.' :: [] := hs
      rw [hj, sentencesFrom_append_dot hne hdot htrim, sentencesFrom_nil, ← hs]
    | cons s2 g3 =>
      have hg2 : ∀ x ∈ s2 :: g3, goodSentence x :=
        fun x hx => hg x (List.mem_cons_of_mem _ hx)
      rw [joinSpace_cons_cons, hs, List.append_assoc]
      rw [show ['.'] ++ ' ' :: joinSpace (s2 :: g3) =
        '.' :: ' ' :: joinSpace (s2 :: g3) from rfl]
      rw [sentencesFrom_append_dot hne hdot htrim, sentencesFrom_cons_space]
      rw [ih hg2 (by simp), ← hs]

/-- Normalization commutes with reversal. -/
theorem reverse_normalizeChars (l : List Char) :
    (normalizeChars l).reverse = normalizeChars l.reverse := by
  simp [normalizeChars, replaceAllChar, List.map_reverse]

/-- Normalization keeps a clean front clean (the head is non-space, hence
not a line break, hence unchanged). -/
theorem normalize_fix_front {l : List Char} (h : l.dropWhile goIsSpace = l) :
    (normalizeChars l).dropWhile goIsSpace = normalizeChars l := by
  cases l with
  | nil => rfl
  | cons a m =>
    have hpa : goIsSpace a = false := head_dropWhile_false h
    have ha1 : a ≠ '\n' := by
      intro hh; subst hh; exact absurd hpa (by decide)
    have ha2 : a ≠ '\r' := by
      intro hh; subst hh; exact absurd hpa (by decide)
    have hcons : normalizeChars (a :: m) = a :: normalizeChars m := by
      simp [normalizeChars, replaceAllChar, ha1, ha2]
    rw [hcons, List.dropWhile_cons, if_neg (by simp [hpa])]

/-- Normalization keeps a clean back clean. -/
theorem normalize_fix_back {l : List Char}
    (h : List.rdropWhile goIsSpace l = l) :
    List.rdropWhile goIsSpace (normalizeChars l) = normalizeChars l := by
  rw [List.rdropWhile] at h
  have h2 : l.reverse.dropWhile goIsSpace = l.reverse := by
    rw [← List.reverse_reverse (l.reverse.dropWhile goIsSpace), h]
  rw [List.rdropWhile, reverse_normalizeChars, normalize_fix_front h2,
    ← reverse_normalizeChars, List.reverse_reverse]

/-- The sentences of a space-join of good sentences, through the full
chunker pipeline (trim, normalize, split). -/
theorem sentencesOf_joinSpace {g : List (List Char)}
    (hg : ∀ s ∈ g, goodSentence s) (hne : g ≠ []) :
    sentencesOf (joinSpace g) = g := by
  have hnb : '\n' ∉ joinSpace g := by
    intro hm
    rcases mem_joinSpace hm with h1 | ⟨s, hs, hcs⟩
    · exact absurd h1 (by decide)
    · obtain ⟨core, rfl, -, -, hn2, -, -, -⟩ := hg s hs
      rcases List.mem_append.mp hcs with h3 | h4
      · exact hn2 h3
      · exact absurd (List.mem_singleton.mp h4) (by decide)
  have hrb : '\r' ∉ joinSpace g := by
    intro hm
    rcases mem_joinSpace hm with h1 | ⟨s, hs, hcs⟩
    · exact absurd h1 (by decide)
    · obtain ⟨core, rfl, -, -, -, hr2, -, -⟩ := hg s hs
      rcases List.mem_append.mp hcs with h3 | h4
      · exact hr2 h3
      · exact absurd (List.mem_singleton.mp h4) (by decide)
  have hfix1 : (joinSpace g).dropWhile goIsSpace = joinSpace g := by
    cases g with
    | nil => rfl
    | cons s g2 =>
      obtain ⟨core, hs, hcne, -, -, -, h1, -⟩ := hg s (List.mem_cons_self s g2)
      cases core with
      | nil => cases hcne rfl
      | cons a m =>
        have hpa : goIsSpace a = false := head_dropWhile_false h1
        cases g2 with
        | nil =>
          show (joinSpace [s]).dropWhile goIsSpace = joinSpace [s]
          have : joinSpace [s] = a :: (m ++ ['.']) := by rw [hs]; rfl
          rw [this, List.dropWhile_cons, if_neg (by simp [hpa])]
        | cons t g3 =>
          rw [joinSpace_cons_cons, hs]
          rw [show ((a :: m) ++ ['.']) ++ ' ' :: joinSpace (t :: g3) =
            a :: ((m ++ ['.']) ++ ' ' :: joinSpace (t :: g3)) from by simp]
          rw [List.dropWhile_cons, if_neg (by simp [hpa])]
  have hfix2 : List.rdropWhile goIsSpace (joinSpace g) = joinSpace g := by
    obtain ⟨K, hK⟩ := joinSpace_ends_dot hg hne
    rw [hK]
    exact List.rdropWhile_concat_neg _ _ _ (by decide)
  rw [sentencesOf, trimChars_eq_self hfix1 hfix2,
    normalizeChars_eq_self hnb hrb]
  exact sentencesFrom_joinSpace hg hne

/-- Every sentence extracted from a break-free text is good. -/
theorem sentencesFrom_good {u : List Char} (hn : '\n' ∉ u) (hr : '\r' ∉ u) :
    ∀ s ∈ sentencesFrom u, goodSentence s := by
  intro s hs
  rw [sentencesFrom] at hs
  obtain ⟨x, hx, rfl⟩ := List.mem_map.mp hs
  obtain ⟨hx2, hxne⟩ := List.mem_filter.mp hx
  obtain ⟨f, hf, rfl⟩ := List.mem_map.mp hx2
  refine ⟨trimChars f, rfl, ?_, ?_, ?_, ?_, dropWhile_trimChars f,
    rdropWhile_trimChars f⟩
  · intro h
    rw [h] at hxne
    simp at hxne
  · intro hm
    exact splitOnDot_no_dot f hf (trimChars_subset hm)
  · intro hm
    exact hn (splitOnDot_subset f hf _ (trimChars_subset hm))
  · intro hm
    exact hr (splitOnDot_subset f hf _ (trimChars_subset hm))

/-- The grouping loop partitions its input: re-extracting the sentences of
every emitted chunk and concatenating gives back the pending batch followed
by the remaining sentences. -/
theorem chunkLoop_join (d : String) (n : Int) :
    ∀ (sents current : List (List Char)) (idx : Nat),
      (∀ s ∈ current ++ sents, goodSentence s) →
      ((chunkLoop d n sents current idx).map
          (fun c => sentencesOf c.Text)).flatten = current ++ sents := by
  intro sents
  induction sents with
  | nil =>
    intro current idx hgood
    rw [chunkLoop]
    by_cases hc : current.isEmpty
    · have hcn : current = [] := by
        cases current with
        | nil => rfl
        | cons a m => cases hc
      rw [if_pos hc, hcn]
      rfl
    · have hcn : current ≠ [] := by
        intro h; rw [h] at hc; exact hc rfl
      rw [if_neg hc, List.map_cons, List.map_nil, List.flatten_cons,
        List.flatten_nil, List.append_nil, List.append_nil]
      exact sentencesOf_joinSpace
        (fun s hsm => hgood s (by simpa using hsm)) hcn
  | cons s rest ih =>
    intro current idx hgood
    have hgood2 : ∀ x ∈ (current ++ [s]) ++ rest, goodSentence x := by
      intro x hx
      apply hgood
      simpa [List.append_assoc] using hx
    rw [chunkLoop]
    by_cases hc : (((current ++ [s]).length : Int)) ≥ n
    · rw [if_pos hc, List.map_cons, List.flatten_cons]
      have h1 : sentencesOf (joinSpace (current ++ [s])) = current ++ [s] :=
        sentencesOf_joinSpace
          (fun x hx => hgood2 x (List.mem_append_left _ hx)) (by simp)
      have h2 : ((chunkLoop d n rest [] (idx + 1)).map
          (fun c => sentencesOf c.Text)).flatten = [] ++ rest :=
        ih [] (idx + 1) (fun x hx => hgood2 x (List.mem_append_right _
          (by simpa using hx)))
      rw [h1, h2]
      simp
    · rw [if_neg hc]
      rw [ih (current ++ [s]) idx hgood2]
      simp

/-- Claim C2: for every document text and every group size N > 0, splitting
the chunk texts back into their terminator-restored sentences (ignoring the
grouping boundaries) reproduces every original sentence exactly once, in
the original order. -/
theorem chunk_reassembles_sentences (docID : String) (text : List Char)
    (n : Int) (hn : 0 < n) :
    ((simpleChunkDocument docID text n).map
        (fun c => sentencesOf c.Text)).flatten = sentencesOf text := by
  rw [simpleChunkDocument]
  by_cases ht : (trimChars text).isEmpty
  · rw [if_pos ht]
    have htn : trimChars text = [] := by
      cases htc : trimChars text with
      | nil => rfl
      | cons a m => rw [htc] at ht; cases ht
    rw [sentencesOf, htn]
    rfl
  · rw [if_neg ht, sentencesOf]
    have hnb := normalizeChars_no_break (trimChars text)
    exact chunkLoop_join docID n _ [] 0
      (fun x hx => sentencesFrom_good hnb.1 hnb.2 x (by simpa using hx))

/-- Claim C2 witness: the reassembly property evaluated on Scenario A's
text at group size 2. -/
theorem chunk_reassembles_sentences_w :
    (0 : Int) < 2 ∧
    ((simpleChunkDocument "doc" "Hello world. This is a test. Bye now.".toList
        2).map (fun c => sentencesOf c.Text)).flatten =
      sentencesOf "Hello world. This is a test. Bye now.".toList :=
  ⟨by decide, chunk_reassembles_sentences "doc" _ 2 (by decide)⟩

/-- Claim C4, counterexample: on the terminator-free input `"Hello"` the
chunker yields the single passage `"Hello."` — the whitespace-normalized
input with a terminator appended — not the normalized input text itself. -/
theorem chunk_no_terminator_cex :
    simpleChunkDocument "doc" "Hello".toList 2 =
      [{ ID := "doc-0", Text := "Hello.".toList }] ∧
    (simpleChunkDocument "doc" "Hello".toList 2).map Chunk.Text ≠
      [normalizeChars (trimChars "Hello".toList)] := by
  constructor <;> decide

/-- Claim C4 (amended): for every input containing a non-whitespace
character and no terminator at all, the chunker returns exactly one
passage, with ordinal 0, whose text is the whitespace-normalized input text
with the `'.'` terminator appended. -/
theorem chunk_no_terminator (docID : String) (text : List Char) (n : Int)
    (h1 : ∃ c ∈ text, goIsSpace c = false) (h2 : '.' ∉ text) :
    simpleChunkDocument docID text n =
      [{ ID := chunkID docID 0,
         Text := normalizeChars (trimChars text) ++ ['.'] }] := by
  obtain ⟨c, hc, hcp⟩ := h1
  have htne : trimChars text ≠ [] := by
    intro h
    have hm := mem_trimChars_of_not hc hcp
    rw [h] at hm
    cases hm
  have hune : normalizeChars (trimChars text) ≠ [] := normalizeChars_ne_nil htne
  have hud : '.' ∉ normalizeChars (trimChars text) := by
    intro hm
    rcases mem_of_mem_normalizeChars hm with hsp | hmem
    · exact absurd hsp (by decide)
    · exact h2 (trimChars_subset hmem)
  have htu : trimChars (normalizeChars (trimChars text)) =
      normalizeChars (trimChars text) :=
    trimChars_eq_self (normalize_fix_front (dropWhile_trimChars text))
      (normalize_fix_back (rdropWhile_trimChars text))
  have hts : (trimChars text).isEmpty = false := by
    cases htc : trimChars text with
    | nil => cases htne htc
    | cons a m => rfl
  have hsent : sentencesFrom (normalizeChars (trimChars text)) =
      [normalizeChars (trimChars text) ++ ['.']] := by
    rw [sentencesFrom, splitOnDot_of_not_mem hud, List.map_cons, List.map_nil,
      htu, List.filter_cons]
    have hcne : (!(normalizeChars (trimChars text)).isEmpty) = true := by
      cases hu : normalizeChars (trimChars text) with
      | nil => cases hune hu
      | cons a m => rfl
    rw [if_pos hcne]
    rfl
  rw [simpleChunkDocument, if_neg (by rw [hts]; exact Bool.false_ne_true),
    hsent, chunkLoop]
  by_cases hn1 : ((([] ++ [normalizeChars (trimChars text) ++ ['.']] :
      List (List Char)).length : Int)) ≥ n
  · rw [if_pos hn1, chunkLoop]
    rfl
  · rw [if_neg hn1, chunkLoop]
    rfl

/-- Claim C4 witness: the amended claim evaluated on a terminator-free
concrete input with an internal line break. -/
theorem chunk_no_terminator_w :
    ((∃ c ∈ " Hi\nthere ".toList, goIsSpace c = false) ∧
      '.' ∉ " Hi\nthere ".toList) ∧
    simpleChunkDocument "doc" " Hi\nthere ".toList 2 =
      [{ ID := chunkID "doc" 0,
         Text := normalizeChars (trimChars " Hi\nthere ".toList) ++ ['.'] }] :=
  ⟨⟨by decide, by decide⟩,
    chunk_no_terminator "doc" " Hi\nthere ".toList 2 (by decide) (by decide)⟩

/-- With a group threshold at most 1, every sentence is emitted on arrival
as a one-sentence chunk with consecutive ordinals. -/
theorem chunkLoop_single {d : String} {n : Int} (hn : n ≤ 1) :
    ∀ (sents : List (List Char)) (idx : Nat),
      chunkLoop d n sents [] idx =
        (List.enumFrom idx sents).map
          (fun p => { ID := chunkID d p.1, Text := p.2 }) := by
  intro sents
  induction sents with
  | nil => intro idx; rfl
  | cons s rest ih =>
    intro idx
    have hc : ((([] ++ [s] : List (List Char)).length : Int)) ≥ n := by
      simpa using hn
    rw [chunkLoop, if_pos hc, ih (idx + 1)]
    rfl

/-- Claim C10 (implicit): calling the chunker with a non-positive group
size terminates and emits each retained sentence as its own one-sentence
passage with ordinals 0, 1, 2, … — the same output as group size 1. -/
theorem chunk_nonpos_group (docID : String) (text : List Char) (n : Int)
    (hn : n ≤ 0) :
    simpleChunkDocument docID text n = simpleChunkDocument docID text 1 ∧
    simpleChunkDocument docID text n =
      (sentencesOf text).enum.map
        (fun p => { ID := chunkID docID p.1, Text := p.2 }) := by
  have h1 : ∀ m : Int, m ≤ 1 →
      simpleChunkDocument docID text m =
        (sentencesOf text).enum.map
          (fun p => { ID := chunkID docID p.1, Text := p.2 }) := by
    intro m hm
    rw [simpleChunkDocument]
    by_cases ht : (trimChars text).isEmpty
    · rw [if_pos ht]
      have htn : trimChars text = [] := by
        cases htc : trimChars text with
        | nil => rfl
        | cons a m2 => rw [htc] at ht; cases ht
      rw [sentencesOf, htn]
      rfl
    · rw [if_neg ht, sentencesOf]
      exact chunkLoop_single hm _ 0
  exact ⟨(h1 n (le_trans hn (by norm_num))).trans (h1 1 le_rfl).symm,
    h1 n (le_trans hn (by norm_num))⟩

/-- Claim C10 witness: group size -3 on a three-sentence text. -/
theorem chunk_nonpos_group_w :
    (-3 : Int) ≤ 0 ∧
    (simpleChunkDocument "doc" "A. B. C.".toList (-3) =
        simpleChunkDocument "doc" "A. B. C.".toList 1 ∧
      simpleChunkDocument "doc" "A. B. C.".toList (-3) =
        (sentencesOf "A. B. C.".toList).enum.map
          (fun p => { ID := chunkID "doc" p.1, Text := p.2 })) :=
  ⟨by decide, chunk_nonpos_group "doc" "A. B. C.".toList (-3) (by decide)⟩

/-- `batchesGo` ignores the fuel as long as it covers the list length. -/
theorem batchesGo_stable {α : Type} (n : Nat) :
    ∀ (fuel1 : Nat) (fuel2 : Nat) (l : List α), l.length ≤ fuel1 →
      l.length ≤ fuel2 → batchesGo n fuel1 l = batchesGo n fuel2 l := by
  intro fuel1
  induction fuel1 with
  | zero =>
    intro fuel2 l h1 _
    cases l with
    | nil => cases fuel2 <;> rfl
    | cons x xs => simp at h1
  | succ f ih =>
    intro fuel2 l h1 h2
    cases l with
    | nil => cases fuel2 <;> rfl
    | cons x xs =>
      cases fuel2 with
      | zero => simp at h2
      | succ f2 =>
        show (x :: xs.take (n - 1)) :: batchesGo n f (xs.drop (n - 1)) =
          (x :: xs.take (n - 1)) :: batchesGo n f2 (xs.drop (n - 1))
        congr 1
        have hd : (xs.drop (n - 1)).length ≤ xs.length := by
          rw [List.length_drop]; omega
        have hx1 : xs.length ≤ f := by simpa using h1
        have hx2 : xs.length ≤ f2 := by simpa using h2
        exact ih f2 _ (le_trans hd hx1) (le_trans hd hx2)

/-- One step of the batching loop. -/
theorem batchesOf_cons {α : Type} (n : Nat) (x : α) (xs : List α) :
    batchesOf n (x :: xs) =
      (x :: xs.take (n - 1)) :: batchesOf n (xs.drop (n - 1)) := by
  show (x :: xs.take (n - 1)) :: batchesGo n xs.length (xs.drop (n - 1)) = _
  congr 1
  apply batchesGo_stable
  · rw [List.length_drop]; omega
  · exact le_rfl

/-- Batching partitions the list: concatenating the batches gives it back. -/
theorem batchesOf_flatten {α : Type} (n : Nat) :
    ∀ l : List α, (batchesOf n l).flatten = l := by
  have key : ∀ (fuel : Nat) (l : List α), l.length ≤ fuel →
      (batchesGo n fuel l).flatten = l := by
    intro fuel
    induction fuel with
    | zero =>
      intro l h
      cases l with
      | nil => rfl
      | cons x xs => simp at h
    | succ f ih =>
      intro l h
      cases l with
      | nil => rfl
      | cons x xs =>
        show ((x :: xs.take (n - 1)) ::
          batchesGo n f (xs.drop (n - 1))).flatten = x :: xs
        rw [List.flatten_cons]
        have hd : (xs.drop (n - 1)).length ≤ f := by
          rw [List.length_drop]
          have := (by simpa using h : xs.length ≤ f)
          omega
        rw [ih _ hd, List.cons_append, List.take_append_drop]
  intro l
  exact key l.length l le_rfl

/-- A key present in an association list has a `lookup` hit. -/
theorem lookup_isSome_of_mem {k : String} {v : Vec} :
    ∀ {m : EmbeddingMap}, (k, v) ∈ m → (m.lookup k).isSome := by
  intro m
  induction m with
  | nil => intro h; cases h
  | cons p rest ih =>
    intro h
    rcases List.mem_cons.mp h with rfl | h2
    · simp [List.lookup]
    · cases p with
      | mk k2 v2 =>
        by_cases hk : k = k2
        · simp [List.lookup, hk]
        · simp only [List.lookup]
          rw [show (k == k2) = false by simp [hk]]
          exact ih h2

/-- A key of the left list of a same-length zip appears in the zip. -/
theorem mem_zip_of_mem_left {ks : List String} (vs : List Vec) {k : String}
    (h : k ∈ ks) (hlen : ks.length = vs.length) :
    ∃ v, (k, v) ∈ ks.zip vs := by
  induction ks generalizing vs with
  | nil => cases h
  | cons a ks ih =>
    cases vs with
    | nil => simp at hlen
    | cons b vs =>
      rcases List.mem_cons.mp h with rfl | h2
      · exact ⟨b, List.mem_cons_self _ _⟩
      · obtain ⟨v, hv⟩ := ih vs h2 (by simpa using hlen)
        exact ⟨v, List.mem_cons_of_mem _ hv⟩

/-- Step equation of the HF runner when the response decodes to vectors. -/
theorem hfRunBatches_step_vectors {backend : List (List Char) → BackendResp}
    {b : List Chunk} {vs : List Vec}
    (hb : backend (b.map Chunk.Text) = .vectors vs) (bs : List (List Chunk))
    (out : EmbeddingMap) (reqs : List (List (List Char))) :
    hfRunBatches backend (b :: bs) out reqs =
      if vs.length = b.length then
        hfRunBatches backend bs (out ++ (b.map Chunk.ID).zip vs)
          (reqs ++ [b.map Chunk.Text])
      else
        { result := .error ("HF API embeddings count mismatch: have " ++
            toString vs.length ++ " want " ++ toString b.length),
          requests := reqs ++ [b.map Chunk.Text] } := by
  rw [hfRunBatches, hb]

/-- Step equation of the HF runner on a transport error. -/
theorem hfRunBatches_step_netErr {backend : List (List Char) → BackendResp}
    {b : List Chunk} {e : String}
    (hb : backend (b.map Chunk.Text) = .netErr e) (bs : List (List Chunk))
    (out : EmbeddingMap) (reqs : List (List (List Char))) :
    hfRunBatches backend (b :: bs) out reqs =
      { result := .error e, requests := reqs ++ [b.map Chunk.Text] } := by
  rw [hfRunBatches, hb]

/-- Step equation of the HF runner on a non-200 response. -/
theorem hfRunBatches_step_non200 {backend : List (List Char) → BackendResp}
    {b : List Chunk} {status : Nat} {body : String}
    (hb : backend (b.map Chunk.Text) = .non200 status body)
    (bs : List (List Chunk)) (out : EmbeddingMap)
    (reqs : List (List (List Char))) :
    hfRunBatches backend (b :: bs) out reqs =
      { result := .error ("HF API non-200: " ++ toString status ++ ": " ++ body),
        requests := reqs ++ [b.map Chunk.Text] } := by
  rw [hfRunBatches, hb]

/-- Step equation of the HF runner on an undecodable body. -/
theorem hfRunBatches_step_badJSON {backend : List (List Char) → BackendResp}
    {b : List Chunk} {e : String}
    (hb : backend (b.map Chunk.Text) = .badJSON e) (bs : List (List Chunk))
    (out : EmbeddingMap) (reqs : List (List (List Char))) :
    hfRunBatches backend (b :: bs) out reqs =
      { result := .error e, requests := reqs ++ [b.map Chunk.Text] } := by
  rw [hfRunBatches, hb]

/-- If the HF batch runner succeeds, the accumulated map is preserved and
every chunk of every batch has an entry in the final map. -/
theorem hfRunBatches_ok_mem (backend : List (List Char) → BackendResp) :
    ∀ (bs : List (List Chunk)) (out : EmbeddingMap)
      (reqs : List (List (List Char))) (m : EmbeddingMap),
      (hfRunBatches backend bs out reqs).result = .ok m →
      (∀ p ∈ out, p ∈ m) ∧ ∀ b ∈ bs, ∀ ch ∈ b, ∃ v, (ch.ID, v) ∈ m := by
  intro bs
  induction bs with
  | nil =>
    intro out reqs m h
    rw [hfRunBatches] at h
    simp only [Except.ok.injEq] at h
    subst h
    exact ⟨fun p hp => hp, fun b hb => absurd hb (List.not_mem_nil b)⟩
  | cons b bs ih =>
    intro out reqs m h
    cases hb : backend (b.map Chunk.Text) with
    | netErr e => rw [hfRunBatches_step_netErr hb] at h; cases h
    | non200 status body => rw [hfRunBatches_step_non200 hb] at h; cases h
    | badJSON e => rw [hfRunBatches_step_badJSON hb] at h; cases h
    | vectors vs =>
      rw [hfRunBatches_step_vectors hb] at h
      by_cases hl : vs.length = b.length
      · rw [if_pos hl] at h
        obtain ⟨hsub, hall⟩ := ih _ _ _ h
        refine ⟨fun p hp => hsub p (List.mem_append_left _ hp), ?_⟩
        intro c hc ch hch
        rcases List.mem_cons.mp hc with rfl | hc2
        · have hid : ch.ID ∈ c.map Chunk.ID := List.mem_map_of_mem _ hch
          obtain ⟨v, hv⟩ := mem_zip_of_mem_left vs hid (by simp [hl])
          exact ⟨v, hsub _ (List.mem_append_right _ hv)⟩
        · exact hall c hc2 ch hch
      · rw [if_neg hl] at h; cases h

/-- If some batch's response is a vector array of the wrong length, the HF
runner returns an error. -/
theorem hfRunBatches_mismatch (backend : List (List Char) → BackendResp) :
    ∀ (bs : List (List Chunk)) (out : EmbeddingMap)
      (reqs : List (List (List Char))) (b : List Chunk) (vs : List Vec),
      b ∈ bs → backend (b.map Chunk.Text) = .vectors vs →
      vs.length ≠ b.length →
      ∃ e, (hfRunBatches backend bs out reqs).result = .error e := by
  intro bs
  induction bs with
  | nil => intro out reqs b vs hb; cases hb
  | cons b0 bs ih =>
    intro out reqs b vs hb hresp hlen
    cases hb0 : backend (b0.map Chunk.Text) with
    | netErr e => exact ⟨e, by rw [hfRunBatches_step_netErr hb0]⟩
    | non200 status body => exact ⟨_, by rw [hfRunBatches_step_non200 hb0]⟩
    | badJSON e => exact ⟨e, by rw [hfRunBatches_step_badJSON hb0]⟩
    | vectors vs0 =>
      by_cases hl : vs0.length = b0.length
      · rcases List.mem_cons.mp hb with rfl | hb2
        · rw [hresp] at hb0
          cases hb0
          exact absurd hl hlen
        · obtain ⟨e, he⟩ := ih (out ++ (b0.map Chunk.ID).zip vs0)
            (reqs ++ [b0.map Chunk.Text]) b vs hb2 hresp hlen
          refine ⟨e, ?_⟩
          rw [hfRunBatches_step_vectors hb0, if_pos hl]
          exact he
      · exact ⟨_, by rw [hfRunBatches_step_vectors hb0, if_neg hl]⟩

/-- Step equation of the TEI runner when the response decodes to vectors. -/
theorem teiRunBatches_step_vectors {backend : List (List Char) → BackendResp}
    {b : List Chunk} {vs : List Vec}
    (hb : backend (b.map Chunk.Text) = .vectors vs) (bs : List (List Chunk))
    (out : EmbeddingMap) (reqs : List (List (List Char))) :
    teiRunBatches backend (b :: bs) out reqs =
      if vs.length = b.length then
        teiRunBatches backend bs (out ++ (b.map Chunk.ID).zip vs)
          (reqs ++ [b.map Chunk.Text])
      else
        { result := .error ("TEI embeddings count mismatch: have " ++
            toString vs.length ++ " want " ++ toString b.length),
          requests := reqs ++ [b.map Chunk.Text] } := by
  rw [teiRunBatches, hb]

/-- Step equation of the TEI runner on a transport error. -/
theorem teiRunBatches_step_netErr {backend : List (List Char) → BackendResp}
    {b : List Chunk} {e : String}
    (hb : backend (b.map Chunk.Text) = .netErr e) (bs : List (List Chunk))
    (out : EmbeddingMap) (reqs : List (List (List Char))) :
    teiRunBatches backend (b :: bs) out reqs =
      { result := .error e, requests := reqs ++ [b.map Chunk.Text] } := by
  rw [teiRunBatches, hb]

/-- Step equation of the TEI runner on a non-200 response. -/
theorem teiRunBatches_step_non200 {backend : List (List Char) → BackendResp}
    {b : List Chunk} {status : Nat} {body : String}
    (hb : backend (b.map Chunk.Text) = .non200 status body)
    (bs : List (List Chunk)) (out : EmbeddingMap)
    (reqs : List (List (List Char))) :
    teiRunBatches backend (b :: bs) out reqs =
      { result := .error ("TEI non-200: " ++ toString status ++ ": " ++ body),
        requests := reqs ++ [b.map Chunk.Text] } := by
  rw [teiRunBatches, hb]

/-- Step equation of the TEI runner on an undecodable body. -/
theorem teiRunBatches_step_badJSON {backend : List (List Char) → BackendResp}
    {b : List Chunk} {e : String}
    (hb : backend (b.map Chunk.Text) = .badJSON e) (bs : List (List Chunk))
    (out : EmbeddingMap) (reqs : List (List (List Char))) :
    teiRunBatches backend (b :: bs) out reqs =
      { result := .error e, requests := reqs ++ [b.map Chunk.Text] } := by
  rw [teiRunBatches, hb]

/-- If the TEI batch runner succeeds, the accumulated map is preserved and
every chunk of every batch has an entry in the final map. -/
theorem teiRunBatches_ok_mem (backend : List (List Char) → BackendResp) :
    ∀ (bs : List (List Chunk)) (out : EmbeddingMap)
      (reqs : List (List (List Char))) (m : EmbeddingMap),
      (teiRunBatches backend bs out reqs).result = .ok m →
      (∀ p ∈ out, p ∈ m) ∧ ∀ b ∈ bs, ∀ ch ∈ b, ∃ v, (ch.ID, v) ∈ m := by
  intro bs
  induction bs with
  | nil =>
    intro out reqs m h
    rw [teiRunBatches] at h
    simp only [Except.ok.injEq] at h
    subst h
    exact ⟨fun p hp => hp, fun b hb => absurd hb (List.not_mem_nil b)⟩
  | cons b bs ih =>
    intro out reqs m h
    cases hb : backend (b.map Chunk.Text) with
    | netErr e => rw [teiRunBatches_step_netErr hb] at h; cases h
    | non200 status body => rw [teiRunBatches_step_non200 hb] at h; cases h
    | badJSON e => rw [teiRunBatches_step_badJSON hb] at h; cases h
    | vectors vs =>
      rw [teiRunBatches_step_vectors hb] at h
      by_cases hl : vs.length = b.length
      · rw [if_pos hl] at h
        obtain ⟨hsub, hall⟩ := ih _ _ _ h
        refine ⟨fun p hp => hsub p (List.mem_append_left _ hp), ?_⟩
        intro c hc ch hch
        rcases List.mem_cons.mp hc with rfl | hc2
        · have hid : ch.ID ∈ c.map Chunk.ID := List.mem_map_of_mem _ hch
          obtain ⟨v, hv⟩ := mem_zip_of_mem_left vs hid (by simp [hl])
          exact ⟨v, hsub _ (List.mem_append_right _ hv)⟩
        · exact hall c hc2 ch hch
      · rw [if_neg hl] at h; cases h

/-- If some batch's response is a vector array of the wrong length, the TEI
runner returns an error. -/
theorem teiRunBatches_mismatch (backend : List (List Char) → BackendResp) :
    ∀ (bs : List (List Chunk)) (out : EmbeddingMap)
      (reqs : List (List (List Char))) (b : List Chunk) (vs : List Vec),
      b ∈ bs → backend (b.map Chunk.Text) = .vectors vs →
      vs.length ≠ b.length →
      ∃ e, (teiRunBatches backend bs out reqs).result = .error e := by
  intro bs
  induction bs with
  | nil => intro out reqs b vs hb; cases hb
  | cons b0 bs ih =>
    intro out reqs b vs hb hresp hlen
    cases hb0 : backend (b0.map Chunk.Text) with
    | netErr e => exact ⟨e, by rw [teiRunBatches_step_netErr hb0]⟩
    | non200 status body => exact ⟨_, by rw [teiRunBatches_step_non200 hb0]⟩
    | badJSON e => exact ⟨e, by rw [teiRunBatches_step_badJSON hb0]⟩
    | vectors vs0 =>
      by_cases hl : vs0.length = b0.length
      · rcases List.mem_cons.mp hb with rfl | hb2
        · rw [hresp] at hb0
          cases hb0
          exact absurd hl hlen
        · obtain ⟨e, he⟩ := ih (out ++ (b0.map Chunk.ID).zip vs0)
            (reqs ++ [b0.map Chunk.Text]) b vs hb2 hresp hlen
          refine ⟨e, ?_⟩
          rw [teiRunBatches_step_vectors hb0, if_pos hl]
          exact he
      · exact ⟨_, by rw [teiRunBatches_step_vectors hb0, if_neg hl]⟩

/-- Claim C7: for both the Hugging Face and the TEI backend, `Embed` either
succeeds with a vector entry for every submitted chunk, or fails with an
error and no result map; in particular a batch whose response carries a
number of vectors different from the number of inputs makes the whole call
fail. -/
theorem embed_all_or_nothing (backend : List (List Char) → BackendResp)
    (batchN : Nat) (hb : 0 < batchN) (chunks : List Chunk) :
    ((∀ m, (hfEmbedderEmbed backend batchN chunks).result = .ok m →
        ∀ c ∈ chunks, (m.lookup c.ID).isSome) ∧
      (∀ b ∈ batchesOf batchN chunks, ∀ vs,
        backend (b.map Chunk.Text) = .vectors vs → vs.length ≠ b.length →
        ∃ e, (hfEmbedderEmbed backend batchN chunks).result = .error e)) ∧
    ((∀ m, (teiEmbedderEmbed backend batchN chunks).result = .ok m →
        ∀ c ∈ chunks, (m.lookup c.ID).isSome) ∧
      (∀ b ∈ batchesOf batchN chunks, ∀ vs,
        backend (b.map Chunk.Text) = .vectors vs → vs.length ≠ b.length →
        ∃ e, (teiEmbedderEmbed backend batchN chunks).result = .error e)) := by
  refine ⟨⟨?_, ?_⟩, ?_, ?_⟩
  · intro m h c hc
    cases chunks with
    | nil => cases hc
    | cons c0 cs =>
      rw [hfEmbedderEmbed, if_neg (by simp)] at h
      obtain ⟨-, hall⟩ := hfRunBatches_ok_mem backend _ [] [] m h
      have hcj : c ∈ (batchesOf batchN (c0 :: cs)).flatten := by
        rw [batchesOf_flatten]; exact hc
      obtain ⟨bb, hbb, hcb⟩ := List.mem_flatten.mp hcj
      obtain ⟨v, hv⟩ := hall bb hbb c hcb
      exact lookup_isSome_of_mem hv
  · intro b hbmem vs hresp hlen
    cases chunks with
    | nil =>
      rw [show batchesOf batchN ([] : List Chunk) = [] from rfl] at hbmem
      cases hbmem
    | cons c0 cs =>
      obtain ⟨e, he⟩ := hfRunBatches_mismatch backend _ [] [] b vs hbmem hresp hlen
      refine ⟨e, ?_⟩
      rw [hfEmbedderEmbed, if_neg (by simp)]
      exact he
  · intro m h c hc
    cases chunks with
    | nil => cases hc
    | cons c0 cs =>
      rw [teiEmbedderEmbed, if_neg (by simp)] at h
      obtain ⟨-, hall⟩ := teiRunBatches_ok_mem backend _ [] [] m h
      have hcj : c ∈ (batchesOf batchN (c0 :: cs)).flatten := by
        rw [batchesOf_flatten]; exact hc
      obtain ⟨bb, hbb, hcb⟩ := List.mem_flatten.mp hcj
      obtain ⟨v, hv⟩ := hall bb hbb c hcb
      exact lookup_isSome_of_mem hv
  · intro b hbmem vs hresp hlen
    cases chunks with
    | nil =>
      rw [show batchesOf batchN ([] : List Chunk) = [] from rfl] at hbmem
      cases hbmem
    | cons c0 cs =>
      obtain ⟨e, he⟩ := teiRunBatches_mismatch backend _ [] [] b vs hbmem hresp hlen
      refine ⟨e, ?_⟩
      rw [teiEmbedderEmbed, if_neg (by simp)]
      exact he

/-- Claim C7 witness: a backend that always returns zero vectors makes a
one-chunk `Embed` call fail for both backends. -/
theorem embed_all_or_nothing_w :
    0 < 1 ∧
    (∃ e, (hfEmbedderEmbed (fun _ => BackendResp.vectors []) 1
        [{ ID := "a", Text := ['x'] }]).result = .error e) ∧
    ∃ e, (teiEmbedderEmbed (fun _ => BackendResp.vectors []) 1
        [{ ID := "a", Text := ['x'] }]).result = .error e :=
  ⟨Nat.one_pos,
    (embed_all_or_nothing (fun _ => BackendResp.vectors []) 1 Nat.one_pos
        [{ ID := "a", Text := ['x'] }]).1.2
      [{ ID := "a", Text := ['x'] }] (by decide) [] rfl (by decide),
    (embed_all_or_nothing (fun _ => BackendResp.vectors []) 1 Nat.one_pos
        [{ ID := "a", Text := ['x'] }]).2.2
      [{ ID := "a", Text := ['x'] }] (by decide) [] rfl (by decide)⟩
